import Mathlib

/-!
# MyHashMap (src/Q2.cpp): a fixed-bucket separate-chaining hash table

Shallow embedding of the class `MyHashMap` of `src/Q2.cpp`.

* A `Node*` chain head is a `List Node`: `nullptr` is `[]`, and a node whose
  `next` field points to the chain `rest` is `node :: rest`.  Every node is owned
  by exactly one chain, so the list view loses no aliasing.
* `vector<Node*> table` is a `List (List Node)`.
* C++ `int` keys and values are `Int`.  The only arithmetic the class performs is
  `key % SIZE`, which cannot overflow, so no wrap-around is involved; the
  representable range is recorded in `isInt`.
* `table[index]` with an index outside `[0, table.size())` is undefined
  behaviour; the operations return `none` there.
-/

/-- Node structure for the linked list of a bucket (lines 7-12); the `next`
pointer is the tail of the list that holds the node. -/
structure MyHashMap.Node where
  key : Int
  value : Int
deriving DecidableEq

/-- The class state: `vector<Node*> table` (line 16). -/
structure MyHashMap where
  table : List (List MyHashMap.Node)
deriving DecidableEq

namespace MyHashMap

/-- Range of the C++ type `int` (32 bits, two's complement). -/
def isInt (x : Int) : Prop := -2147483648 ≤ x ∧ x ≤ 2147483647

instance (x : Int) : Decidable (isInt x) := by
  unfold isInt; infer_instance

/-- Size of the hash table (line 15). -/
def SIZE : Int := 10007

/-- Hash function (lines 19-21): `key % SIZE`, the C++ remainder, which
truncates towards zero. -/
def hash (key : Int) : Int :=
  Int.tmod key SIZE

/-- The constructor (lines 24-26): `table.resize(SIZE, nullptr)` on the empty vector. -/
def new : MyHashMap :=
  ⟨List.replicate SIZE.toNat []⟩

/-- The read `table[index]`: defined only for `0 ≤ index < table.size()`. -/
def bucketAt (table : List (List Node)) (index : Int) : Option (List Node) :=
  if 0 ≤ index then table[index.toNat]? else none

/-- The `while` loop of `put` (lines 33-39): overwrite the value of the first
node whose key matches and stop; `none` when the chain is exhausted without a
match. -/
def putLoop (key value : Int) : List Node → Option (List Node)
  | [] => none
  | current :: next =>
    if current.key = key then some (⟨current.key, value⟩ :: next)
    else (putLoop key value next).map (fun rest => current :: rest)

/-- Method `put` (lines 28-45). -/
def put (m : MyHashMap) (key value : Int) : Option MyHashMap :=
  let index := hash key
  match bucketAt m.table index with
  | none => none
  | some head =>
    match putLoop key value head with
    | some updated => some ⟨m.table.set index.toNat updated⟩
    | none => some ⟨m.table.set index.toNat (⟨key, value⟩ :: head)⟩

/-- The `while` loop of `get` (lines 51-58): the value of the first node whose
key matches, `-1` when the chain is exhausted. -/
def getLoop (key : Int) : List Node → Int
  | [] => -1
  | current :: next =>
    if current.key = key then current.value else getLoop key next

/-- Method `get` (lines 47-59). -/
def get (m : MyHashMap) (key : Int) : Option Int :=
  let index := hash key
  match bucketAt m.table index with
  | none => none
  | some head => some (getLoop key head)

/-- The `while` loop of `remove` (lines 66-80): splice out the first node whose
key matches and stop; `none` when the chain is exhausted without a match. -/
def removeLoop (key : Int) : List Node → Option (List Node)
  | [] => none
  | current :: next =>
    if current.key = key then some next
    else (removeLoop key next).map (fun rest => current :: rest)

/-- Method `remove` (lines 61-81). -/
def remove (m : MyHashMap) (key : Int) : Option MyHashMap :=
  let index := hash key
  match bucketAt m.table index with
  | none => none
  | some head =>
    match removeLoop key head with
    | some spliced => some ⟨m.table.set index.toNat spliced⟩
    | none => some m

/-- A mutating call on the table. -/
inductive Call where
  | put (key value : Int)
  | remove (key : Int)
deriving DecidableEq

/-- The key a call mentions. -/
def Call.key : Call → Int
  | Call.put key _ => key
  | Call.remove key => key

/-- Perform one call. -/
def step (m : MyHashMap) : Call → Option MyHashMap
  | Call.put key value => m.put key value
  | Call.remove key => m.remove key

/-- Perform a sequence of calls, left to right. -/
def run (m : MyHashMap) : List Call → Option MyHashMap
  | [] => some m
  | c :: cs =>
    match step m c with
    | none => none
    | some m' => run m' cs

/-- All entries of the table, bucket after bucket. -/
def entries (m : MyHashMap) : List Node :=
  m.table.flatten

/-- The chain that `put` stores back at `table[index]`: the chain with the
matching node overwritten, or the new node linked in front of the old head. -/
def putChain (key value : Int) (head : List Node) : List Node :=
  match putLoop key value head with
  | some updated => updated
  | none => ⟨key, value⟩ :: head

/-- The chain that `remove` leaves at `table[index]`: the chain with the
matching node spliced out, or the old chain when nothing matches. -/
def removeChain (key : Int) (head : List Node) : List Node :=
  match removeLoop key head with
  | some spliced => spliced
  | none => head

/-- The bucket array has its constructed length. -/
def Sized (m : MyHashMap) : Prop :=
  m.table.length = SIZE.toNat

/-- No chain holds two nodes with the same key. -/
def ChainsNodup (m : MyHashMap) : Prop :=
  ∀ c ∈ m.table, (c.map Node.key).Nodup

/-- Every node sits in the bucket its key hashes to. -/
def Placed (m : MyHashMap) : Prop :=
  ∀ (i : Nat) (c : List Node), m.table[i]? = some c → ∀ n ∈ c, hash n.key = (i : Int)

/-- The class invariant maintained by the public methods. -/
structure Inv (m : MyHashMap) : Prop where
  sized : Sized m
  nodup : ChainsNodup m
  placed : Placed m

/-- Key `k` has no node in the chain of its own bucket. -/
def Absent (m : MyHashMap) (k : Int) : Prop :=
  ∀ head, bucketAt m.table (hash k) = some head → k ∉ head.map Node.key

/-! ## Chain-level facts about the three loops -/

theorem putLoop_eq_none_iff (key value : Int) (c : List Node) :
    putLoop key value c = none ↔ key ∉ c.map Node.key := by
  induction c with
  | nil => simp [putLoop]
  | cons n rest ih =>
    by_cases h : n.key = key
    · simp [putLoop, h]
    · have h' : ¬ key = n.key := fun e => h e.symm
      simp [putLoop, h, h', ih]

theorem getLoop_putLoop_same (key value : Int) :
    ∀ (c c' : List Node), putLoop key value c = some c' → getLoop key c' = value := by
  intro c
  induction c with
  | nil => intro c' h; simp [putLoop] at h
  | cons n rest ih =>
    intro c' h
    by_cases hk : n.key = key
    · simp [putLoop, hk] at h
      subst h
      simp [getLoop]
    · simp [putLoop, hk] at h
      obtain ⟨r, hr, rfl⟩ := h
      simp [getLoop, hk, ih r hr]

theorem getLoop_putLoop_ne (k1 value k2 : Int) (hne : k2 ≠ k1) :
    ∀ (c c' : List Node), putLoop k1 value c = some c' → getLoop k2 c' = getLoop k2 c := by
  intro c
  induction c with
  | nil => intro c' h; simp [putLoop] at h
  | cons n rest ih =>
    intro c' h
    by_cases hk : n.key = k1
    · simp [putLoop, hk] at h
      subst h
      have h1 : ¬ k1 = k2 := fun e => hne e.symm
      simp [getLoop, hk, h1]
    · simp [putLoop, hk] at h
      obtain ⟨r, hr, rfl⟩ := h
      simp [getLoop, ih r hr]

theorem keys_putLoop (key value : Int) :
    ∀ (c c' : List Node), putLoop key value c = some c' →
      c'.map Node.key = c.map Node.key := by
  intro c
  induction c with
  | nil => intro c' h; simp [putLoop] at h
  | cons n rest ih =>
    intro c' h
    by_cases hk : n.key = key
    · simp [putLoop, hk] at h
      subst h
      simp [hk]
    · simp [putLoop, hk] at h
      obtain ⟨r, hr, rfl⟩ := h
      simp [ih r hr]

theorem removeLoop_eq_none_iff (key : Int) (c : List Node) :
    removeLoop key c = none ↔ key ∉ c.map Node.key := by
  induction c with
  | nil => simp [removeLoop]
  | cons n rest ih =>
    by_cases h : n.key = key
    · simp [removeLoop, h]
    · have h' : ¬ key = n.key := fun e => h e.symm
      simp [removeLoop, h, h', ih]

theorem getLoop_removeLoop_ne (k1 k2 : Int) (hne : k2 ≠ k1) :
    ∀ (c c' : List Node), removeLoop k1 c = some c' → getLoop k2 c' = getLoop k2 c := by
  intro c
  induction c with
  | nil => intro c' h; simp [removeLoop] at h
  | cons n rest ih =>
    intro c' h
    by_cases hk : n.key = k1
    · simp [removeLoop, hk] at h
      subst h
      have h1 : ¬ k1 = k2 := fun e => hne e.symm
      simp [getLoop, hk, h1]
    · simp [removeLoop, hk] at h
      obtain ⟨r, hr, rfl⟩ := h
      simp [getLoop, ih r hr]

theorem keys_removeLoop_sublist (key : Int) :
    ∀ (c c' : List Node), removeLoop key c = some c' →
      (c'.map Node.key).Sublist (c.map Node.key) := by
  intro c
  induction c with
  | nil => intro c' h; simp [removeLoop] at h
  | cons n rest ih =>
    intro c' h
    by_cases hk : n.key = key
    · simp [removeLoop, hk] at h
      subst h
      simp
    · simp [removeLoop, hk] at h
      obtain ⟨r, hr, rfl⟩ := h
      simpa using (ih r hr).cons₂ n.key

theorem nodes_removeLoop_sublist (key : Int) :
    ∀ (c c' : List Node), removeLoop key c = some c' → c'.Sublist c := by
  intro c
  induction c with
  | nil => intro c' h; simp [removeLoop] at h
  | cons n rest ih =>
    intro c' h
    by_cases hk : n.key = key
    · simp [removeLoop, hk] at h
      subst h
      simp
    · simp [removeLoop, hk] at h
      obtain ⟨r, hr, rfl⟩ := h
      exact (ih r hr).cons₂ n

theorem not_mem_keys_removeLoop (key : Int) :
    ∀ (c c' : List Node), removeLoop key c = some c' → (c.map Node.key).Nodup →
      key ∉ c'.map Node.key := by
  intro c
  induction c with
  | nil => intro c' h; simp [removeLoop] at h
  | cons n rest ih =>
    intro c' h hnd
    rw [List.map_cons, List.nodup_cons] at hnd
    by_cases hk : n.key = key
    · simp [removeLoop, hk] at h
      subst h
      rw [← hk]; exact hnd.1
    · simp [removeLoop, hk] at h
      obtain ⟨r, hr, rfl⟩ := h
      have h' : ¬ key = n.key := fun e => hk e.symm
      have := ih r hr hnd.2
      simp only [List.map_cons, List.mem_cons, not_or]
      exact ⟨h', this⟩

theorem getLoop_of_not_mem (key : Int) (c : List Node) (h : key ∉ c.map Node.key) :
    getLoop key c = -1 := by
  induction c with
  | nil => simp [getLoop]
  | cons n rest ih =>
    simp only [List.map_cons, List.mem_cons, not_or] at h
    have h1 : ¬ n.key = key := fun e => h.1 e.symm
    simp [getLoop, h1, ih h.2]

theorem getLoop_mem (key : Int) (c : List Node) (h : key ∈ c.map Node.key) :
    (⟨key, getLoop key c⟩ : Node) ∈ c := by
  induction c with
  | nil => simp at h
  | cons n rest ih =>
    by_cases hk : n.key = key
    · simp [getLoop, hk]
      left; rw [← hk]
    · have h' : ¬ key = n.key := fun e => hk e.symm
      simp only [List.map_cons, List.mem_cons, h', false_or] at h
      simp [getLoop, hk, ih h]

/-! ## Bucket indexing -/

theorem hash_nonneg {key : Int} (h : 0 ≤ key) : 0 ≤ hash key :=
  Int.tmod_nonneg SIZE h

theorem hash_lt (key : Int) : hash key < SIZE :=
  Int.tmod_lt_of_pos key (by decide)

theorem bucketAt_eq_some_iff (table : List (List Node)) (index : Int) (c : List Node) :
    bucketAt table index = some c ↔ 0 ≤ index ∧ table[index.toNat]? = some c := by
  unfold bucketAt
  by_cases h : 0 ≤ index <;> simp [h]

theorem bucketAt_isSome {m : MyHashMap} (hs : Sized m) {key : Int} (hk : 0 ≤ key) :
    ∃ head, bucketAt m.table (hash key) = some head := by
  have h0 := hash_nonneg hk
  have h1 := hash_lt key
  have hlt : (hash key).toNat < m.table.length := by
    rw [hs]; simp only [SIZE] at h1 ⊢; omega
  refine ⟨m.table[(hash key).toNat], ?_⟩
  rw [bucketAt_eq_some_iff]
  exact ⟨h0, List.getElem?_eq_getElem hlt⟩

theorem bucketAt_set {table : List (List Node)} {i : Int} {head : List Node}
    (h : bucketAt table i = some head) (c : List Node) (j : Int) :
    bucketAt (table.set i.toNat c) j = if j = i then some c else bucketAt table j := by
  rw [bucketAt_eq_some_iff] at h
  obtain ⟨hi, hget⟩ := h
  have hlt : i.toNat < table.length := by
    rcases List.getElem?_eq_some_iff.mp hget with ⟨hl, _⟩
    exact hl
  by_cases hj : 0 ≤ j
  · by_cases hij : j = i
    · subst hij
      simp [bucketAt, hj, List.getElem?_set, hlt]
    · have hne : i.toNat ≠ j.toNat := by omega
      simp [bucketAt, hj, hij, List.getElem?_set, hne]
  · have hij : j ≠ i := by omega
    simp [bucketAt, hj, hij]

theorem set_bucketAt_self {table : List (List Node)} {i : Int} {head : List Node}
    (h : bucketAt table i = some head) : table.set i.toNat head = table := by
  rw [bucketAt_eq_some_iff] at h
  apply List.ext_getElem?
  intro j
  rw [List.getElem?_set]
  by_cases hj : i.toNat = j
  · subst hj
    rcases List.getElem?_eq_some_iff.mp h.2 with ⟨hl, _⟩
    simp [hl, h.2]
  · simp [hj]

/-! ## The methods in terms of the chain they store back -/

theorem put_eq {m : MyHashMap} {key : Int} {head : List Node}
    (h : bucketAt m.table (hash key) = some head) (value : Int) :
    put m key value = some ⟨m.table.set (hash key).toNat (putChain key value head)⟩ := by
  unfold put putChain
  simp only [h]
  cases putLoop key value head <;> rfl

theorem remove_eq {m : MyHashMap} {key : Int} {head : List Node}
    (h : bucketAt m.table (hash key) = some head) :
    remove m key = some ⟨m.table.set (hash key).toNat (removeChain key head)⟩ := by
  unfold remove removeChain
  simp only [h]
  cases hr : removeLoop key head with
  | some spliced => rfl
  | none =>
    simp only
    rw [set_bucketAt_self h]

theorem get_eq {m : MyHashMap} {key : Int} {head : List Node}
    (h : bucketAt m.table (hash key) = some head) :
    get m key = some (getLoop key head) := by
  unfold get
  simp only [h]

theorem get_set {table : List (List Node)} {i : Int} {head : List Node}
    (h : bucketAt table i = some head) (c : List Node) (key : Int) :
    get ⟨table.set i.toNat c⟩ key =
      if hash key = i then some (getLoop key c) else get ⟨table⟩ key := by
  unfold get
  simp only [bucketAt_set h]
  by_cases hk : hash key = i <;> simp [hk]

/-! ## The stored-back chains -/

theorem getLoop_putChain_same (key value : Int) (head : List Node) :
    getLoop key (putChain key value head) = value := by
  unfold putChain
  cases h : putLoop key value head with
  | some updated => exact getLoop_putLoop_same key value head updated h
  | none => simp [getLoop]

theorem getLoop_putChain_ne {k1 k2 : Int} (hne : k2 ≠ k1) (value : Int) (head : List Node) :
    getLoop k2 (putChain k1 value head) = getLoop k2 head := by
  unfold putChain
  cases h : putLoop k1 value head with
  | some updated => exact getLoop_putLoop_ne k1 value k2 hne head updated h
  | none =>
    have h1 : ¬ k1 = k2 := fun e => hne e.symm
    simp [getLoop, h1]

theorem getLoop_removeChain_ne {k1 k2 : Int} (hne : k2 ≠ k1) (head : List Node) :
    getLoop k2 (removeChain k1 head) = getLoop k2 head := by
  unfold removeChain
  cases h : removeLoop k1 head with
  | some spliced => exact getLoop_removeLoop_ne k1 k2 hne head spliced h
  | none => rfl

theorem keys_putChain (key value : Int) (head : List Node) :
    (putChain key value head).map Node.key =
      if key ∈ head.map Node.key then head.map Node.key else key :: head.map Node.key := by
  unfold putChain
  cases h : putLoop key value head with
  | some updated =>
    have hm : key ∈ head.map Node.key := by
      by_contra hc
      rw [(putLoop_eq_none_iff key value head).mpr hc] at h
      cases h
    simp only [hm, if_true]
    exact keys_putLoop key value head updated h
  | none =>
    have hm := (putLoop_eq_none_iff key value head).mp h
    simp only [hm, if_false, List.map_cons]

theorem mem_keys_putChain (key value x : Int) (head : List Node) :
    x ∈ (putChain key value head).map Node.key ↔ x = key ∨ x ∈ head.map Node.key := by
  rw [keys_putChain]
  by_cases hm : key ∈ head.map Node.key
  · simp only [hm, if_true]
    constructor
    · exact Or.inr
    · rintro (rfl | h)
      · exact hm
      · exact h
  · simp only [hm, if_false, List.mem_cons]

theorem nodup_putChain (key value : Int) (head : List Node)
    (h : (head.map Node.key).Nodup) : ((putChain key value head).map Node.key).Nodup := by
  rw [keys_putChain]
  by_cases hm : key ∈ head.map Node.key
  · simpa only [hm, if_true] using h
  · simp only [hm, if_false]
    exact List.nodup_cons.mpr ⟨hm, h⟩

theorem keys_removeChain_sublist (key : Int) (head : List Node) :
    ((removeChain key head).map Node.key).Sublist (head.map Node.key) := by
  unfold removeChain
  cases h : removeLoop key head with
  | some spliced => exact keys_removeLoop_sublist key head spliced h
  | none => exact List.Sublist.refl _

theorem removeChain_sublist (key : Int) (head : List Node) :
    (removeChain key head).Sublist head := by
  unfold removeChain
  cases h : removeLoop key head with
  | some spliced => exact nodes_removeLoop_sublist key head spliced h
  | none => exact List.Sublist.refl _

theorem not_mem_keys_removeChain (key : Int) (head : List Node)
    (hnd : (head.map Node.key).Nodup) : key ∉ (removeChain key head).map Node.key := by
  unfold removeChain
  cases h : removeLoop key head with
  | some spliced => exact not_mem_keys_removeLoop key head spliced h hnd
  | none => exact (removeLoop_eq_none_iff key head).mp h

theorem removeChain_of_not_mem (key : Int) (head : List Node)
    (h : key ∉ head.map Node.key) : removeChain key head = head := by
  unfold removeChain
  rw [(removeLoop_eq_none_iff key head).mpr h]

/-! ## Preservation of the invariant -/

theorem inv_new : Inv new := by
  refine ⟨?_, ?_, ?_⟩
  · simp [Sized, new]
  · intro c hc
    simp only [new] at hc
    rw [List.eq_of_mem_replicate hc]
    exact List.nodup_nil
  · intro i c hc n hn
    simp only [new] at hc
    have := List.getElem?_eq_some_iff.mp hc
    obtain ⟨_, he⟩ := this
    simp at he
    subst he
    simp at hn

theorem inv_set {m : MyHashMap} (hinv : Inv m) {key : Int} {head c : List Node}
    (hb : bucketAt m.table (hash key) = some head)
    (hnd : (c.map Node.key).Nodup)
    (hpl : ∀ x ∈ c.map Node.key, x = key ∨ x ∈ head.map Node.key) :
    Inv ⟨m.table.set (hash key).toNat c⟩ := by
  have hb' := (bucketAt_eq_some_iff _ _ _).mp hb
  refine ⟨?_, ?_, ?_⟩
  · simp only [Sized, List.length_set]
    exact hinv.sized
  · intro d hd
    rcases List.mem_or_eq_of_mem_set hd with h | h
    · exact hinv.nodup d h
    · rw [h]; exact hnd
  · intro i d hd n hn
    simp only at hd
    rw [List.getElem?_set] at hd
    by_cases hi : (hash key).toNat = i
    · have hlt : (hash key).toNat < m.table.length :=
        (List.getElem?_eq_some_iff.mp hb'.2).1
      simp only [hi, if_true] at hd
      rw [← hi] at hd
      simp only [hlt, if_true, Option.some.injEq] at hd
      subst hd
      have hidx : hash key = (i : Int) := by
        have := hb'.1
        omega
      rcases hpl n.key (List.mem_map_of_mem Node.key hn) with h | h
      · rw [h]; exact hidx
      · obtain ⟨n', hn', he⟩ := List.mem_map.mp h
        rw [← he, ← hi]
        exact hinv.placed _ head hb'.2 n' hn'
    · simp only [hi, if_false] at hd
      exact hinv.placed i d hd n hn

theorem inv_put {m : MyHashMap} (hinv : Inv m) {key : Int} (hk : 0 ≤ key) (value : Int) :
    ∃ m', put m key value = some m' ∧ Inv m' := by
  obtain ⟨head, hb⟩ := bucketAt_isSome hinv.sized hk
  refine ⟨_, put_eq hb value, ?_⟩
  have hmem : head ∈ m.table :=
    List.getElem?_mem ((bucketAt_eq_some_iff _ _ _).mp hb).2
  apply inv_set hinv hb
  · exact nodup_putChain key value head (hinv.nodup head hmem)
  · intro x hx
    exact (mem_keys_putChain key value x head).mp hx

theorem inv_remove {m : MyHashMap} (hinv : Inv m) {key : Int} (hk : 0 ≤ key) :
    ∃ m', remove m key = some m' ∧ Inv m' := by
  obtain ⟨head, hb⟩ := bucketAt_isSome hinv.sized hk
  refine ⟨_, remove_eq hb, ?_⟩
  have hmem : head ∈ m.table :=
    List.getElem?_mem ((bucketAt_eq_some_iff _ _ _).mp hb).2
  apply inv_set hinv hb
  · exact (hinv.nodup head hmem).sublist (keys_removeChain_sublist key head)
  · intro x hx
    exact Or.inr ((keys_removeChain_sublist key head).subset hx)

theorem inv_step {m : MyHashMap} (hinv : Inv m) {c : Call} (hk : 0 ≤ c.key) :
    ∃ m', step m c = some m' ∧ Inv m' := by
  cases c with
  | put key value => exact inv_put hinv hk value
  | remove key => exact inv_remove hinv hk

theorem inv_run (cs : List Call) :
    ∀ {m : MyHashMap}, Inv m → (∀ c ∈ cs, 0 ≤ c.key) →
      ∃ m', run m cs = some m' ∧ Inv m' := by
  induction cs with
  | nil => intro m hinv _; exact ⟨m, rfl, hinv⟩
  | cons c cs ih =>
    intro m hinv hcs
    obtain ⟨m1, h1, hinv1⟩ := inv_step hinv (hcs c (List.mem_cons_self c cs))
    obtain ⟨m2, h2, hinv2⟩ := ih hinv1 (fun d hd => hcs d (List.mem_cons_of_mem c hd))
    refine ⟨m2, ?_, hinv2⟩
    simp only [run, h1, h2]

theorem run_append (cs ds : List Call) :
    ∀ (m : MyHashMap), run m (cs ++ ds) = (run m cs).bind (fun m' => run m' ds) := by
  induction cs with
  | nil => intro m; rfl
  | cons c cs ih =>
    intro m
    simp only [List.cons_append, run]
    cases step m c with
    | none => rfl
    | some m' => exact ih m'

/-! ## What `get` sees after a method has run -/

theorem get_put {m : MyHashMap} {k1 : Int} {head : List Node}
    (hb : bucketAt m.table (hash k1) = some head) (value k2 : Int) :
    get ⟨m.table.set (hash k1).toNat (putChain k1 value head)⟩ k2 =
      if k2 = k1 then some value else get m k2 := by
  rw [get_set hb]
  by_cases hk : k2 = k1
  · subst hk
    simp [getLoop_putChain_same]
  · simp only [hk, if_false]
    by_cases hh : hash k2 = hash k1
    · simp only [hh, if_true]
      rw [getLoop_putChain_ne hk, get_eq (hh ▸ hb)]
    · simp only [hh, if_false]

theorem get_remove_ne {m : MyHashMap} {k1 : Int} {head : List Node}
    (hb : bucketAt m.table (hash k1) = some head) {k2 : Int} (hk : k2 ≠ k1) :
    get ⟨m.table.set (hash k1).toNat (removeChain k1 head)⟩ k2 = get m k2 := by
  rw [get_set hb]
  by_cases hh : hash k2 = hash k1
  · simp only [hh, if_true]
    rw [getLoop_removeChain_ne hk, get_eq (hh ▸ hb)]
  · simp only [hh, if_false]

theorem get_remove_same {m : MyHashMap} {key : Int} {head : List Node}
    (hb : bucketAt m.table (hash key) = some head) (hnd : (head.map Node.key).Nodup) :
    get ⟨m.table.set (hash key).toNat (removeChain key head)⟩ key = some (-1) := by
  rw [get_set hb]
  simp only [if_true]
  rw [getLoop_of_not_mem key _ (not_mem_keys_removeChain key head hnd)]

theorem get_of_absent {m : MyHashMap} (hs : Sized m) {k : Int} (hk : 0 ≤ k)
    (ha : Absent m k) : get m k = some (-1) := by
  obtain ⟨head, hb⟩ := bucketAt_isSome hs hk
  rw [get_eq hb, getLoop_of_not_mem k head (ha head hb)]

theorem absent_new (k : Int) : Absent new k := by
  intro head hb
  have h := ((bucketAt_eq_some_iff _ _ _).mp hb).2
  simp only [new] at h
  obtain ⟨_, he⟩ := List.getElem?_eq_some_iff.mp h
  simp at he
  subst he
  simp

theorem absent_set {m : MyHashMap} {i : Int} {head : List Node}
    (hb : bucketAt m.table i = some head) (c : List Node) {k : Int}
    (ha : Absent m k) (hc : hash k = i → k ∉ c.map Node.key) :
    Absent ⟨m.table.set i.toNat c⟩ k := by
  intro d hd
  simp only at hd
  rw [bucketAt_set hb] at hd
  by_cases hh : hash k = i
  · simp only [hh, if_true, Option.some.injEq] at hd
    subst hd
    exact hc hh
  · simp only [hh, if_false] at hd
    exact ha d hd

/-- One call that is not a `put` of `k` keeps `k` out of its bucket. -/
theorem absent_step {m : MyHashMap} (hinv : Inv m) {k : Int} (ha : Absent m k)
    {c : Call} (hc : 0 ≤ c.key) (hno : ∀ v, c ≠ Call.put k v) :
    ∃ m', step m c = some m' ∧ Inv m' ∧ Absent m' k := by
  obtain ⟨m', hstep, hinv'⟩ := inv_step hinv hc
  refine ⟨m', hstep, hinv', ?_⟩
  cases c with
  | put k1 value =>
    have hne : k ≠ k1 := fun e => hno value (by rw [e])
    have hc1 : 0 ≤ k1 := hc
    obtain ⟨head, hb⟩ := bucketAt_isSome hinv.sized hc1
    simp only [step, put_eq hb value, Option.some.injEq] at hstep
    subst hstep
    apply absent_set hb _ ha
    intro hh hmem
    rcases (mem_keys_putChain k1 value k head).mp hmem with h | h
    · exact hne h
    · exact ha head (hh ▸ hb) h
  | remove k1 =>
    have hc1 : 0 ≤ k1 := hc
    obtain ⟨head, hb⟩ := bucketAt_isSome hinv.sized hc1
    simp only [step, remove_eq hb, Option.some.injEq] at hstep
    subst hstep
    apply absent_set hb _ ha
    intro hh hmem
    exact ha head (hh ▸ hb) ((keys_removeChain_sublist k1 head).subset hmem)

theorem absent_run (cs : List Call) (k : Int) :
    ∀ {m : MyHashMap}, Inv m → Absent m k → (∀ c ∈ cs, 0 ≤ c.key) →
      (∀ v, Call.put k v ∉ cs) → ∃ m', run m cs = some m' ∧ Inv m' ∧ Absent m' k := by
  induction cs with
  | nil => intro m hinv ha _ _; exact ⟨m, rfl, hinv, ha⟩
  | cons c cs ih =>
    intro m hinv ha hcs hno
    have hc : ∀ v, c ≠ Call.put k v := fun v e => hno v (by rw [e]; exact List.mem_cons_self _ _)
    obtain ⟨m1, h1, hinv1, ha1⟩ := absent_step hinv ha (hcs c (List.mem_cons_self c cs)) hc
    obtain ⟨m2, h2, hinv2, ha2⟩ := ih hinv1 ha1
      (fun d hd => hcs d (List.mem_cons_of_mem c hd))
      (fun v hv => hno v (List.mem_cons_of_mem c hv))
    refine ⟨m2, ?_, hinv2, ha2⟩
    simp only [run, h1, h2]

/-- One call on another key leaves the result of `get k` alone. -/
theorem frame_step {m : MyHashMap} (hinv : Inv m) {c : Call} (hc : 0 ≤ c.key)
    {k : Int} (hne : c.key ≠ k) :
    ∃ m', step m c = some m' ∧ Inv m' ∧ get m' k = get m k := by
  obtain ⟨m', hstep, hinv'⟩ := inv_step hinv hc
  refine ⟨m', hstep, hinv', ?_⟩
  cases c with
  | put k1 value =>
    have hc1 : 0 ≤ k1 := hc
    have hne' : k ≠ k1 := fun e => hne e.symm
    obtain ⟨head, hb⟩ := bucketAt_isSome hinv.sized hc1
    simp only [step, put_eq hb value, Option.some.injEq] at hstep
    subst hstep
    rw [get_put hb]
    simp only [hne', if_false]
  | remove k1 =>
    have hc1 : 0 ≤ k1 := hc
    have hne' : k ≠ k1 := fun e => hne e.symm
    obtain ⟨head, hb⟩ := bucketAt_isSome hinv.sized hc1
    simp only [step, remove_eq hb, Option.some.injEq] at hstep
    subst hstep
    exact get_remove_ne hb hne'

theorem frame_run (cs : List Call) (k : Int) :
    ∀ {m : MyHashMap}, Inv m → (∀ c ∈ cs, 0 ≤ c.key ∧ c.key ≠ k) →
      ∃ m', run m cs = some m' ∧ Inv m' ∧ get m' k = get m k := by
  induction cs with
  | nil => intro m hinv _; exact ⟨m, rfl, hinv, rfl⟩
  | cons c cs ih =>
    intro m hinv hcs
    have hc := hcs c (List.mem_cons_self c cs)
    obtain ⟨m1, h1, hinv1, hg1⟩ := frame_step hinv hc.1 hc.2
    obtain ⟨m2, h2, hinv2, hg2⟩ := ih hinv1 (fun d hd => hcs d (List.mem_cons_of_mem c hd))
    refine ⟨m2, ?_, hinv2, hg2.trans hg1⟩
    simp only [run, h1, h2]

/-! ## Claims -/

/-- C1: last write wins. For every sequence of `put` and `remove` calls with
non-negative keys run on a newly constructed table, and every key `k ≥ 0`: if the
last call that mentions `k` is `put(k, v)` (the sequence is `pre`, then
`put(k, v)`, then `post`, and no call of `post` has key `k`), then every call
succeeds and `get(k)` afterwards returns `v`. -/
theorem C1_last_write_wins (pre post : List Call) (k v : Int) (hk : 0 ≤ k)
    (hpre : ∀ c ∈ pre, 0 ≤ c.key) (hpost : ∀ c ∈ post, 0 ≤ c.key ∧ c.key ≠ k) :
    ∃ m, run new (pre ++ Call.put k v :: post) = some m ∧ get m k = some v := by
  obtain ⟨m1, h1, hinv1⟩ := inv_run pre inv_new hpre
  obtain ⟨head, hb⟩ := bucketAt_isSome hinv1.sized hk
  obtain ⟨m2, h2, hinv2⟩ := inv_put hinv1 hk v
  have hg2 : get m2 k = some v := by
    rw [put_eq hb v, Option.some.injEq] at h2
    subst h2
    rw [get_put hb]
    simp only [if_true]
  obtain ⟨m3, h3, _, hg3⟩ := frame_run post k hinv2 hpost
  refine ⟨m3, ?_, hg3.trans hg2⟩
  rw [run_append, h1]
  simp only [Option.bind, run, step, h2, h3]

/-- Witness for C1: `put(1,1), put(2,2), put(2,1), put(1000000,1000000)`, key 2. -/
theorem C1_last_write_wins_witness :
    ∃ m, run new ([Call.put 1 1, Call.put 2 2] ++ Call.put 2 1 :: [Call.put 1000000 1000000])
      = some m ∧ get m 2 = some 1 :=
  C1_last_write_wins [Call.put 1 1, Call.put 2 2] [Call.put 1000000 1000000] 2 1
    (by decide) (by decide) (by decide)

/-- C2: for every table reachable from a newly constructed one by calls with
non-negative keys, and every key `k ≥ 0`, `remove(k)` succeeds and `get(k)` right
after it returns `-1`, whether or not `k` was present. -/
theorem C2_get_after_remove (cs : List Call) (hcs : ∀ c ∈ cs, 0 ≤ c.key)
    (k : Int) (hk : 0 ≤ k) :
    ∃ m m', run new cs = some m ∧ remove m k = some m' ∧ get m' k = some (-1) := by
  obtain ⟨m, hrun, hinv⟩ := inv_run cs inv_new hcs
  obtain ⟨head, hb⟩ := bucketAt_isSome hinv.sized hk
  have hmem : head ∈ m.table := List.getElem?_mem ((bucketAt_eq_some_iff _ _ _).mp hb).2
  exact ⟨m, _, hrun, remove_eq hb, get_remove_same hb (hinv.nodup head hmem)⟩

/-- Witness for C2: `put(2,2), put(2,1)`, then `remove(2)`. -/
theorem C2_get_after_remove_witness :
    ∃ m m', run new [Call.put 2 2, Call.put 2 1] = some m ∧ remove m 2 = some m' ∧
      get m' 2 = some (-1) :=
  C2_get_after_remove [Call.put 2 2, Call.put 2 1] (by decide) 2 (by decide)

/-- C3: a key never inserted is absent. On the newly constructed table
`get(k) = -1` for every `k ≥ 0`, and after any sequence of calls with
non-negative keys none of which is `put(k, _)`, every call succeeds and `get(k)`
returns `-1`. -/
theorem C3_get_never_inserted (cs : List Call) (hcs : ∀ c ∈ cs, 0 ≤ c.key)
    (k : Int) (hk : 0 ≤ k) (hno : ∀ v, Call.put k v ∉ cs) :
    get new k = some (-1) ∧ ∃ m, run new cs = some m ∧ get m k = some (-1) := by
  refine ⟨get_of_absent inv_new.sized hk (absent_new k), ?_⟩
  obtain ⟨m, hrun, hinv, ha⟩ := absent_run cs k inv_new (absent_new k) hcs hno
  exact ⟨m, hrun, get_of_absent hinv.sized hk ha⟩

/-- Witness for C3: after `put(1,1), put(2,2)`, `get(3) = -1`. -/
theorem C3_get_never_inserted_witness :
    get new 3 = some (-1) ∧
      ∃ m, run new [Call.put 1 1, Call.put 2 2] = some m ∧ get m 3 = some (-1) :=
  C3_get_never_inserted [Call.put 1 1, Call.put 2 2] (by decide) 3 (by decide)
    (by intro v; simp)

theorem sized_of_length {m : MyHashMap} (h : m.table.length = 10007) : Sized m := h

theorem sized_set {m : MyHashMap} (hs : Sized m) (i : Nat) (c : List Node) :
    Sized ⟨m.table.set i c⟩ := by
  simp only [Sized, List.length_set]
  exact hs

/-- On a table with its buckets in place, `put` succeeds, keeps the buckets in
place, and changes the result of `get` for its own key only. -/
theorem put_frame {m : MyHashMap} (hs : Sized m) {k1 : Int} (hk : 0 ≤ k1) (value : Int) :
    ∃ m', put m k1 value = some m' ∧ Sized m' ∧ get m' k1 = some value ∧
      ∀ k2, k2 ≠ k1 → get m' k2 = get m k2 := by
  obtain ⟨head, hb⟩ := bucketAt_isSome hs hk
  refine ⟨_, put_eq hb value, sized_set hs _ _, ?_, ?_⟩
  · rw [get_put hb]; simp only [if_true]
  · intro k2 hne
    rw [get_put hb]; simp only [hne, if_false]

/-- On a table with its buckets in place, `remove` succeeds, keeps the buckets
in place, and leaves the result of `get` for every other key alone. -/
theorem remove_frame {m : MyHashMap} (hs : Sized m) {k1 : Int} (hk : 0 ≤ k1) :
    ∃ m', remove m k1 = some m' ∧ Sized m' ∧ ∀ k2, k2 ≠ k1 → get m' k2 = get m k2 := by
  obtain ⟨head, hb⟩ := bucketAt_isSome hs hk
  exact ⟨_, remove_eq hb, sized_set hs _ _, fun k2 hne => get_remove_ne hb hne⟩

/-- C4: distinct keys do not interfere. For every table state (a bucket array
of 10007 chains with any contents) and all keys `k1 ≥ 0`, `k2 ≥ 0` with
`k1 ≠ k2`, whether or not they share a bucket: `put(k1, v1)` succeeds and
leaves `get(k2)` unchanged; `remove(k1)` succeeds and leaves `get(k2)`
unchanged; and after `put(k1, v1)` and `put(k2, v2)` both values are retrieved,
and removing either key leaves the other one retrievable with its value. -/
theorem C4_distinct_keys_independent (m : MyHashMap) (hs : m.table.length = 10007)
    (k1 k2 v1 v2 : Int) (h1 : 0 ≤ k1) (h2 : 0 ≤ k2) (hne : k1 ≠ k2) :
    (∃ m', put m k1 v1 = some m' ∧ get m' k2 = get m k2) ∧
    (∃ m', remove m k1 = some m' ∧ get m' k2 = get m k2) ∧
    (∃ ma mb, put m k1 v1 = some ma ∧ put ma k2 v2 = some mb ∧
      get mb k1 = some v1 ∧ get mb k2 = some v2 ∧
      (∃ mc, remove mb k1 = some mc ∧ get mc k2 = some v2) ∧
      (∃ mc, remove mb k2 = some mc ∧ get mc k1 = some v1)) := by
  have hs' : Sized m := sized_of_length hs
  have hne' : k2 ≠ k1 := fun e => hne e.symm
  obtain ⟨ma, hpa, hsa, hga, hfa⟩ := put_frame hs' h1 v1
  obtain ⟨mr, hpr, _, hfr⟩ := remove_frame hs' h1
  obtain ⟨mb, hpb, hsb, hgb, hfb⟩ := put_frame hsa h2 v2
  obtain ⟨mc1, hc1, _, hf1⟩ := remove_frame hsb h1
  obtain ⟨mc2, hc2, _, hf2⟩ := remove_frame hsb h2
  have hb1 : get mb k1 = some v1 := (hfb k1 hne).trans hga
  refine ⟨⟨ma, hpa, hfa k2 hne'⟩, ⟨mr, hpr, hfr k2 hne'⟩, ma, mb, hpa, hpb, hb1, hgb, ?_, ?_⟩
  · exact ⟨mc1, hc1, (hf1 k2 hne').trans hgb⟩
  · exact ⟨mc2, hc2, (hf2 k1 hne).trans hb1⟩

/-- Witness for C4: the colliding keys 1 and 10008 on the new table. -/
theorem C4_distinct_keys_independent_witness :
    hash 1 = hash 10008 ∧
    ((∃ m', put new 1 5 = some m' ∧ get m' 10008 = get new 10008) ∧
    (∃ m', remove new 1 = some m' ∧ get m' 10008 = get new 10008) ∧
    (∃ ma mb, put new 1 5 = some ma ∧ put ma 10008 7 = some mb ∧
      get mb 1 = some 5 ∧ get mb 10008 = some 7 ∧
      (∃ mc, remove mb 1 = some mc ∧ get mc 10008 = some 7) ∧
      (∃ mc, remove mb 10008 = some mc ∧ get mc 1 = some 5))) :=
  ⟨by decide, C4_distinct_keys_independent new (List.length_replicate _ _) 1 10008 5 7
    (by decide) (by decide) (by decide)⟩

/-- C5 (fails on the code): `hash` does not yield a bucket index for a negative
key. The key `-1` is a representable `int`, `hash(-1)` is `-1`, and `put`, `get`
and `remove` then read `table[-1]`, outside the bucket array. -/
theorem C5_hash_negative_key :
    isInt (-1) ∧ hash (-1) = -1 ∧ ¬ (0 ≤ hash (-1)) ∧
      put new (-1) 0 = none ∧ get new (-1) = none ∧ remove new (-1) = none := by
  have h : bucketAt new.table (hash (-1)) = none := by
    have hh : hash (-1) = -1 := by decide
    rw [hh]
    exact if_neg (by decide)
  refine ⟨by decide, by decide, by decide, ?_, ?_, ?_⟩
  · simp [put, h]
  · simp [get, h]
  · simp [remove, h]

/-! ## Entries of the whole table -/

theorem mem_entries_iff (m : MyHashMap) (n : Node) :
    n ∈ entries m ↔ ∃ (i : Nat) (c : List Node), m.table[i]? = some c ∧ n ∈ c := by
  unfold entries
  rw [List.mem_flatten]
  constructor
  · rintro ⟨c, hc, hn⟩
    obtain ⟨i, hi⟩ := List.mem_iff_getElem?.mp hc
    exact ⟨i, c, hi, hn⟩
  · rintro ⟨i, c, hi, hn⟩
    exact ⟨c, List.getElem?_mem hi, hn⟩

/-- Under the placement invariant an entry of the table with key `k` lies in
the chain of bucket `hash k`. -/
theorem mem_entries_key {m : MyHashMap} (hp : Placed m) {k : Int} {head : List Node}
    (hb : bucketAt m.table (hash k) = some head) (n : Node) (hk : n.key = k) :
    n ∈ entries m ↔ n ∈ head := by
  have hb' := (bucketAt_eq_some_iff _ _ _).mp hb
  rw [mem_entries_iff]
  constructor
  · rintro ⟨i, c, hi, hn⟩
    have h := hp i c hi n hn
    rw [hk] at h
    have hi' : (hash k).toNat = i := by omega
    rw [← hi', hb'.2, Option.some.injEq] at hi
    rw [hi]; exact hn
  · intro hn
    exact ⟨_, head, hb'.2, hn⟩

theorem getLoop_of_mem_nodup (k v : Int) (c : List Node) (hnd : (c.map Node.key).Nodup)
    (hm : (⟨k, v⟩ : Node) ∈ c) : getLoop k c = v := by
  induction c with
  | nil => simp at hm
  | cons n rest ih =>
    rw [List.map_cons, List.nodup_cons] at hnd
    rcases List.mem_cons.mp hm with h | h
    · subst h
      simp [getLoop]
    · have hne : ¬ n.key = k := by
        intro e
        apply hnd.1
        rw [e]
        exact List.mem_map.mpr ⟨⟨k, v⟩, h, rfl⟩
      simp [getLoop, hne, ih hnd.2 h]

/-- On a table satisfying the invariant, `get` returns the value of the entry
stored for the key, and `-1` when there is none. -/
theorem get_spec {m : MyHashMap} (hinv : Inv m) {k : Int} (hk : 0 ≤ k) :
    (∀ v, (⟨k, v⟩ : Node) ∈ entries m → get m k = some v) ∧
      ((∀ n ∈ entries m, n.key ≠ k) → get m k = some (-1)) ∧
      (get m k = some (-1) → (∀ n ∈ entries m, n.key ≠ k) ∨ (⟨k, -1⟩ : Node) ∈ entries m) := by
  obtain ⟨head, hb⟩ := bucketAt_isSome hinv.sized hk
  have hmem : head ∈ m.table := List.getElem?_mem ((bucketAt_eq_some_iff _ _ _).mp hb).2
  have hnd := hinv.nodup head hmem
  refine ⟨?_, ?_, ?_⟩
  · intro v hv
    rw [mem_entries_key hinv.placed hb ⟨k, v⟩ rfl] at hv
    rw [get_eq hb, getLoop_of_mem_nodup k v head hnd hv]
  · intro hno
    rw [get_eq hb, getLoop_of_not_mem k head]
    intro hin
    obtain ⟨n, hn, he⟩ := List.mem_map.mp hin
    exact hno n ((mem_entries_key hinv.placed hb n he).mpr hn) he
  · intro hg
    rw [get_eq hb, Option.some.injEq] at hg
    by_cases hin : k ∈ head.map Node.key
    · right
      have := getLoop_mem k head hin
      rw [hg] at this
      exact (mem_entries_key hinv.placed hb ⟨k, -1⟩ rfl).mpr this
    · left
      intro n hn he
      apply hin
      exact List.mem_map.mpr ⟨n, (mem_entries_key hinv.placed hb n he).mp hn, he⟩

theorem length_new : new.table.length = SIZE.toNat :=
  List.length_replicate _ _

theorem getElem?_new (i : Nat) (h : i < SIZE.toNat) : new.table[i]? = some [] := by
  unfold new
  rw [List.getElem?_replicate]
  simp only [h, if_true]

theorem bucketAt_new_zero : bucketAt new.table (hash 0) = some [] := by
  rw [bucketAt_eq_some_iff]
  refine ⟨by decide, ?_⟩
  have h0 : (hash 0).toNat = 0 := by decide
  rw [h0]
  exact getElem?_new 0 (by decide)

/-- C6 (fails as stated): a stored value `-1` is not distinguishable from
absence. After `put(0, -1)` on the new table the entry `(0, -1)` is present, yet
`get(0)` returns `-1`, the same result as `get(0)` on the new table, where key 0
is absent. -/
theorem C6_sentinel_counterexample :
    run new [Call.put 0 (-1)] = some ⟨new.table.set 0 [⟨0, -1⟩]⟩ ∧
      (⟨0, -1⟩ : Node) ∈ entries ⟨new.table.set 0 [⟨0, -1⟩]⟩ ∧
      get ⟨new.table.set 0 [⟨0, -1⟩]⟩ 0 = some (-1) ∧
      (∀ n ∈ entries new, n.key ≠ 0) ∧ get new 0 = some (-1) := by
  have h0 : (hash 0).toNat = 0 := by decide
  have hb := bucketAt_new_zero
  have hput : put new 0 (-1) = some ⟨new.table.set 0 [⟨0, -1⟩]⟩ := by
    rw [put_eq hb, h0]; rfl
  have hget : get ⟨new.table.set 0 [⟨0, -1⟩]⟩ 0 = some (-1) := by
    have := get_set hb [⟨0, -1⟩] 0
    rw [h0] at this
    rw [this]; rfl
  refine ⟨?_, ?_, hget, ?_, get_of_absent inv_new.sized (by decide) (absent_new 0)⟩
  · simp only [run, step, hput]
  · rw [mem_entries_iff]
    refine ⟨0, [⟨0, -1⟩], ?_, List.mem_singleton.mpr rfl⟩
    have hlt : 0 < new.table.length := by rw [length_new]; decide
    simp only [List.getElem?_set, hlt, if_true]
  · intro n hn
    rw [mem_entries_iff] at hn
    obtain ⟨i, c, hi, hc⟩ := hn
    simp only [new] at hi
    obtain ⟨_, he⟩ := List.getElem?_eq_some_iff.mp hi
    simp at he
    subst he
    simp at hc

/-- C6 (amended): for every table reachable by calls with non-negative keys and
arbitrary values, and every key `k ≥ 0`: `get(k)` returns the value of the entry
stored for `k` when there is one, and it returns `-1` if and only if no entry
with key `k` is present or the entry stored for `k` has the value `-1`. Absence
is thus distinguishable from every stored value other than `-1`. -/
theorem C6_get_sentinel (cs : List Call) (hcs : ∀ c ∈ cs, 0 ≤ c.key) (k : Int) (hk : 0 ≤ k) :
    ∃ m, run new cs = some m ∧
      (∀ v, (⟨k, v⟩ : Node) ∈ entries m → get m k = some v) ∧
      (get m k = some (-1) ↔
        (∀ n ∈ entries m, n.key ≠ k) ∨ (⟨k, -1⟩ : Node) ∈ entries m) := by
  obtain ⟨m, hrun, hinv⟩ := inv_run cs inv_new hcs
  obtain ⟨h1, h2, h3⟩ := get_spec hinv hk
  refine ⟨m, hrun, h1, h3, ?_⟩
  rintro (h | h)
  · exact h2 h
  · exact h1 (-1) h

/-- Witness for C6 (amended): `put(1,-1), put(2,5)`, key 1. -/
theorem C6_get_sentinel_witness :
    ∃ m, run new [Call.put 1 (-1), Call.put 2 5] = some m ∧
      (∀ v, (⟨1, v⟩ : Node) ∈ entries m → get m 1 = some v) ∧
      (get m 1 = some (-1) ↔
        (∀ n ∈ entries m, n.key ≠ 1) ∨ (⟨1, -1⟩ : Node) ∈ entries m) :=
  C6_get_sentinel [Call.put 1 (-1), Call.put 2 5] (by decide) 1 (by decide)

/-- Under the invariant the keys of all entries of the table are pairwise
different. -/
theorem nodup_keys_entries {m : MyHashMap} (hinv : Inv m) :
    ((entries m).map Node.key).Nodup := by
  unfold entries
  rw [List.map_flatten, List.nodup_flatten]
  constructor
  · intro l hl
    obtain ⟨c, hc, rfl⟩ := List.mem_map.mp hl
    exact hinv.nodup c hc
  · rw [List.pairwise_map, List.pairwise_iff_getElem]
    intro i j hi hj hij x hx1 hx2
    obtain ⟨n1, hn1, he1⟩ := List.mem_map.mp hx1
    obtain ⟨n2, hn2, he2⟩ := List.mem_map.mp hx2
    have h1 := hinv.placed i _ (List.getElem?_eq_getElem hi) n1 hn1
    have h2 := hinv.placed j _ (List.getElem?_eq_getElem hj) n2 hn2
    rw [he1] at h1
    rw [he2] at h2
    omega

theorem countP_key_le_one {l : List Node} (h : (l.map Node.key).Nodup) (key : Int) :
    l.countP (fun n => decide (n.key = key)) ≤ 1 := by
  have h1 := List.nodup_iff_count_le_one.mp h key
  rw [List.count_eq_countP, List.countP_map] at h1
  have h2 : l.countP (fun n => decide (n.key = key)) =
      l.countP ((fun x => x == key) ∘ Node.key) := by
    apply List.countP_congr
    intro n _
    simp
  rw [h2]; exact h1

/-- C7: key uniqueness. In every table reachable from a newly constructed one
by calls with non-negative keys (every such call succeeds), for every key the
entries of all bucket chains taken together hold at most one entry with that
key, and the keys of all entries are pairwise different. -/
theorem C7_key_unique (cs : List Call) (hcs : ∀ c ∈ cs, 0 ≤ c.key) :
    ∃ m, run new cs = some m ∧
      (∀ key : Int, (entries m).countP (fun n => decide (n.key = key)) ≤ 1) ∧
      ((entries m).map Node.key).Nodup := by
  obtain ⟨m, hrun, hinv⟩ := inv_run cs inv_new hcs
  exact ⟨m, hrun, countP_key_le_one (nodup_keys_entries hinv), nodup_keys_entries hinv⟩

/-- Witness for C7: two colliding keys, an update and a removal. -/
theorem C7_key_unique_witness :
    ∃ m, run new [Call.put 1 1, Call.put 10008 2, Call.put 1 3, Call.remove 10008,
        Call.put 10008 4] = some m ∧
      (∀ key : Int, (entries m).countP (fun n => decide (n.key = key)) ≤ 1) ∧
      ((entries m).map Node.key).Nodup :=
  C7_key_unique [Call.put 1 1, Call.put 10008 2, Call.put 1 3, Call.remove 10008,
    Call.put 10008 4] (by decide)

/-- C8: bucket placement. In every table reachable from a newly constructed one
by calls with non-negative keys (every such call succeeds), the bucket array has
exactly 10007 slots and every entry in the chain read at `table[i]` satisfies
`hash(entry.key) = i`. -/
theorem C8_bucket_placement (cs : List Call) (hcs : ∀ c ∈ cs, 0 ≤ c.key) :
    ∃ m, run new cs = some m ∧ m.table.length = 10007 ∧
      ∀ (i : Int) (c : List Node), bucketAt m.table i = some c →
        ∀ n ∈ c, hash n.key = i := by
  obtain ⟨m, hrun, hinv⟩ := inv_run cs inv_new hcs
  refine ⟨m, hrun, hinv.sized, ?_⟩
  intro i c hb n hn
  obtain ⟨h0, hget⟩ := (bucketAt_eq_some_iff _ _ _).mp hb
  have := hinv.placed i.toNat c hget n hn
  omega

/-- Witness for C8: `put(1,1), put(10008,2), remove(1), put(1000000,7)`. -/
theorem C8_bucket_placement_witness :
    ∃ m, run new [Call.put 1 1, Call.put 10008 2, Call.remove 1, Call.put 1000000 7]
        = some m ∧ m.table.length = 10007 ∧
      ∀ (i : Int) (c : List Node), bucketAt m.table i = some c →
        ∀ n ∈ c, hash n.key = i :=
  C8_bucket_placement [Call.put 1 1, Call.put 10008 2, Call.remove 1, Call.put 1000000 7]
    (by decide)

/-- Bucket 5 of the new table after a chain has been stored there, read through
the key 20019, which hashes to 5. -/
theorem bucketAt_new_set_five (c : List Node) :
    bucketAt (new.table.set 5 c) (hash 20019) = some c := by
  have hh : hash 20019 = 5 := by decide
  have hb : bucketAt new.table (5 : Int) = some [] := by
    rw [bucketAt_eq_some_iff]
    exact ⟨by decide, getElem?_new 5 (by decide)⟩
  have h := bucketAt_set hb c 5
  rw [hh]
  simpa using h

/-- C9: `remove` of an absent key is a no-op. For every table state (a bucket
array of 10007 chains with any contents) and every key `k ≥ 0` whose bucket
chain holds no entry with key `k`, `remove(k)` succeeds and leaves the whole
table as it was, so `get` returns the same result as before for every key. -/
theorem C9_remove_absent_noop (m : MyHashMap) (hs : m.table.length = 10007)
    (k : Int) (hk : 0 ≤ k)
    (hab : ∀ head, bucketAt m.table (hash k) = some head → ∀ n ∈ head, n.key ≠ k) :
    ∃ m', remove m k = some m' ∧ m' = m ∧ ∀ k', get m' k' = get m k' := by
  obtain ⟨head, hb⟩ := bucketAt_isSome (sized_of_length hs) hk
  have hno : removeLoop k head = none := by
    rw [removeLoop_eq_none_iff]
    intro hin
    obtain ⟨n, hn, he⟩ := List.mem_map.mp hin
    exact hab head hb n hn he
  refine ⟨m, ?_, rfl, fun _ => rfl⟩
  unfold remove
  simp only [hb, hno]

/-- Witness for C9: the absent key 20019, which hashes to bucket 5, on the table
whose bucket 5 holds the chain `(10012, 60), (5, 50)`: the loop of `remove`
walks both nodes, finds no match, and the table stays as it was. -/
theorem C9_remove_absent_noop_witness :
    bucketAt (new.table.set 5 [⟨10012, 60⟩, ⟨5, 50⟩]) (hash 20019) =
        some [⟨10012, 60⟩, ⟨5, 50⟩] ∧
      ∃ m', remove ⟨new.table.set 5 [⟨10012, 60⟩, ⟨5, 50⟩]⟩ 20019 = some m' ∧
        m' = ⟨new.table.set 5 [⟨10012, 60⟩, ⟨5, 50⟩]⟩ ∧
        ∀ k', get m' k' = get ⟨new.table.set 5 [⟨10012, 60⟩, ⟨5, 50⟩]⟩ k' :=
  ⟨bucketAt_new_set_five _,
    C9_remove_absent_noop ⟨new.table.set 5 [⟨10012, 60⟩, ⟨5, 50⟩]⟩
      (by rw [List.length_set]; exact List.length_replicate _ _) 20019 (by decide)
      (by
        intro head hb n hn
        rw [bucketAt_new_set_five, Option.some.injEq] at hb
        subst hb
        rcases List.mem_cons.mp hn with rfl | hn
        · decide
        · rcases List.mem_cons.mp hn with rfl | hn
          · decide
          · simp at hn)⟩

/-- C10: `remove` is idempotent. For every table reachable from a newly
constructed one by calls with non-negative keys and every key `k ≥ 0`, both
`remove(k)` calls succeed and the table after `remove(k); remove(k)` equals the
table after a single `remove(k)`, so every later `get` returns the same result. -/
theorem C10_remove_idempotent (cs : List Call) (hcs : ∀ c ∈ cs, 0 ≤ c.key)
    (k : Int) (hk : 0 ≤ k) :
    ∃ m m1 m2, run new cs = some m ∧ remove m k = some m1 ∧ remove m1 k = some m2 ∧
      m2 = m1 ∧ ∀ k', get m2 k' = get m1 k' := by
  obtain ⟨m, hrun, hinv⟩ := inv_run cs inv_new hcs
  obtain ⟨head, hb⟩ := bucketAt_isSome hinv.sized hk
  have hmem : head ∈ m.table := List.getElem?_mem ((bucketAt_eq_some_iff _ _ _).mp hb).2
  have hnd := hinv.nodup head hmem
  have hb1 : bucketAt (m.table.set (hash k).toNat (removeChain k head)) (hash k) =
      some (removeChain k head) := by
    rw [bucketAt_set hb]; simp only [if_true]
  have hno : removeLoop k (removeChain k head) = none :=
    (removeLoop_eq_none_iff k _).mpr (not_mem_keys_removeChain k head hnd)
  refine ⟨m, _, _, hrun, remove_eq hb, ?_, rfl, fun _ => rfl⟩
  unfold remove
  simp only [hb1, hno]

/-- Witness for C10: `put(2,2), put(10009,1)`, then `remove(2)` twice. -/
theorem C10_remove_idempotent_witness :
    ∃ m m1 m2, run new [Call.put 2 2, Call.put 10009 1] = some m ∧
      remove m 2 = some m1 ∧ remove m1 2 = some m2 ∧
      m2 = m1 ∧ ∀ k', get m2 k' = get m1 k' :=
  C10_remove_idempotent [Call.put 2 2, Call.put 10009 1] (by decide) 2 (by decide)

/-! ## Structural effect of `put` -/

/-- When the chain holds the key, the loop of `put` rewrites the first node with
that key and nothing else. -/
theorem putLoop_split (key value : Int) :
    ∀ (c : List Node), key ∈ c.map Node.key →
      ∃ pre n post, c = pre ++ n :: post ∧ n.key = key ∧ (∀ x ∈ pre, x.key ≠ key) ∧
        putLoop key value c = some (pre ++ ⟨key, value⟩ :: post) := by
  intro c
  induction c with
  | nil => intro h; simp at h
  | cons a rest ih =>
    intro h
    by_cases hk : a.key = key
    · refine ⟨[], a, rest, rfl, hk, ?_, ?_⟩
      · intro x hx; simp at hx
      · simp [putLoop, hk]
    · have hk' : ¬ key = a.key := fun e => hk e.symm
      simp only [List.map_cons, List.mem_cons, hk', false_or] at h
      obtain ⟨pre, n, post, hc, hn, hpre, hput⟩ := ih h
      refine ⟨a :: pre, n, post, ?_, hn, ?_, ?_⟩
      · rw [hc]; rfl
      · intro x hx
        rcases List.mem_cons.mp hx with rfl | hx
        · exact hk
        · exact hpre x hx
      · simp [putLoop, hk, hput]

theorem map_keys_set {table : List (List Node)} {i : Nat} {head c : List Node}
    (h : table[i]? = some head) (hc : c.map Node.key = head.map Node.key) :
    (table.set i c).map (List.map Node.key) = table.map (List.map Node.key) := by
  apply List.ext_getElem?
  intro j
  simp only [List.getElem?_map, List.getElem?_set]
  by_cases hij : i = j
  · subst hij
    have hlt : i < table.length := (List.getElem?_eq_some_iff.mp h).1
    simp only [if_true, hlt, h, Option.map_some', hc]
  · simp only [hij, if_false]

theorem length_entries_of_map_keys {m m' : MyHashMap}
    (h : m'.table.map (List.map Node.key) = m.table.map (List.map Node.key)) :
    (entries m').length = (entries m).length := by
  have h1 : ((entries m').map Node.key).length = ((entries m).map Node.key).length := by
    unfold entries
    rw [List.map_flatten, List.map_flatten, h]
  simpa only [List.length_map] using h1

/-- C11: structural effect of `put`. For every table state (a bucket array of
10007 chains with any contents) and every key `k ≥ 0`, `put(k, v)` succeeds,
keeps the 10007 slots and leaves every bucket other than `hash(k)` as it was.
(a) If the chain at `hash(k)` holds an entry with key `k`, the chain is
`pre ++ n :: post` with `n` the first entry with key `k`, and it becomes
`pre ++ (k, v) :: post`: only the value of that entry changes, no entry is
created, and the key sequence (hence length and key order) of every chain is
unchanged. (b) Otherwise the chain at `hash(k)` becomes `(k, v)` followed by the
old chain. -/
theorem C11_put_structure (m : MyHashMap) (hs : m.table.length = 10007)
    (k v : Int) (hk : 0 ≤ k) :
    ∃ head m', bucketAt m.table (hash k) = some head ∧ put m k v = some m' ∧
      m'.table.length = 10007 ∧
      (∀ j, j ≠ hash k → bucketAt m'.table j = bucketAt m.table j) ∧
      ((∃ n ∈ head, n.key = k) →
        (∃ pre n post, head = pre ++ n :: post ∧ n.key = k ∧ (∀ x ∈ pre, x.key ≠ k) ∧
          bucketAt m'.table (hash k) = some (pre ++ ⟨k, v⟩ :: post)) ∧
        m'.table.map (List.map Node.key) = m.table.map (List.map Node.key) ∧
        (entries m').length = (entries m).length) ∧
      ((∀ n ∈ head, n.key ≠ k) →
        bucketAt m'.table (hash k) = some (⟨k, v⟩ :: head)) := by
  obtain ⟨head, hb⟩ := bucketAt_isSome (sized_of_length hs) hk
  have hb' := (bucketAt_eq_some_iff _ _ _).mp hb
  refine ⟨head, _, hb, put_eq hb v, ?_, ?_, ?_, ?_⟩
  · simp only [List.length_set]; exact hs
  · intro j hj
    simp only [bucketAt_set hb, hj, if_false]
  · rintro ⟨n, hn, hnk⟩
    have hin : k ∈ head.map Node.key := List.mem_map.mpr ⟨n, hn, hnk⟩
    obtain ⟨pre, n', post, hc, hn', hpre, hput⟩ := putLoop_split k v head hin
    have hpc : putChain k v head = pre ++ ⟨k, v⟩ :: post := by
      unfold putChain; rw [hput]
    have hkeys : (putChain k v head).map Node.key = head.map Node.key := by
      rw [keys_putChain]; simp only [hin, if_true]
    have hmap := map_keys_set hb'.2 hkeys
    refine ⟨⟨pre, n', post, hc, hn', hpre, ?_⟩, hmap, length_entries_of_map_keys hmap⟩
    simp only [bucketAt_set hb, if_true, hpc]
  · intro hno
    have hnone : putLoop k v head = none := by
      rw [putLoop_eq_none_iff]
      intro hin
      obtain ⟨n, hn, he⟩ := List.mem_map.mp hin
      exact hno n hn he
    have hpc : putChain k v head = ⟨k, v⟩ :: head := by
      unfold putChain; rw [hnone]
    simp only [bucketAt_set hb, if_true, hpc]

/-- Witness for C11: `put(1, 9)` on the table whose bucket 1 holds the chain
`(10008, 2), (1, 1)`. -/
theorem C11_put_structure_witness :
    ∃ head m', bucketAt (new.table.set 1 [⟨10008, 2⟩, ⟨1, 1⟩]) (hash 1) = some head ∧
      put ⟨new.table.set 1 [⟨10008, 2⟩, ⟨1, 1⟩]⟩ 1 9 = some m' ∧
      m'.table.length = 10007 ∧
      (∀ j, j ≠ hash 1 →
        bucketAt m'.table j = bucketAt (new.table.set 1 [⟨10008, 2⟩, ⟨1, 1⟩]) j) ∧
      ((∃ n ∈ head, n.key = 1) →
        (∃ pre n post, head = pre ++ n :: post ∧ n.key = 1 ∧ (∀ x ∈ pre, x.key ≠ 1) ∧
          bucketAt m'.table (hash 1) = some (pre ++ ⟨1, 9⟩ :: post)) ∧
        m'.table.map (List.map Node.key) =
          (new.table.set 1 [⟨10008, 2⟩, ⟨1, 1⟩]).map (List.map Node.key) ∧
        (entries m').length = (entries ⟨new.table.set 1 [⟨10008, 2⟩, ⟨1, 1⟩]⟩).length) ∧
      ((∀ n ∈ head, n.key ≠ 1) →
        bucketAt m'.table (hash 1) = some (⟨1, 9⟩ :: head)) :=
  C11_put_structure ⟨new.table.set 1 [⟨10008, 2⟩, ⟨1, 1⟩]⟩
    (by rw [List.length_set]; exact List.length_replicate _ _) 1 9 (by decide)

end MyHashMap
